import Mathlib

/-!
Verification of `file_utils.py` (agitaretech/file-utils).

Shallow embedding: Python strings are modelled as `List Char` (`PyStr`),
the file system relevant to each routine is passed in explicitly (a list of
existing regular-file paths for the copy routine, a directory listing with
an is-regular-file flag for the rename and list routines), and the unbounded
`while` loop of `copy_recursively` is given an explicit fuel parameter so
that its (non-)termination can be stated.  Case folding is modelled with the
ASCII case map (`Char.toLower`); per the module's stated scope the host
locale's case mapping is not load-bearing.
-/

/-- A Python string: a sequence of characters. -/
abbrev PyStr := List Char

/-- Shorthand turning a Lean string literal into the `PyStr` model. -/
def pstr (s : String) : PyStr := s.data

/-- Python `str.lower()` (ASCII model). -/
def pyLower (s : PyStr) : PyStr := s.map Char.toLower

/-- Python `str.count(sub)` totalised with fuel (non-overlapping occurrences
counted left to right; the empty needle occurs `len + 1` times).  Fuel at
least `hay.length` always suffices because every step consumes at least one
character of the haystack, and `pyCount` passes exactly that. -/
def pyCountAux : Nat → PyStr → PyStr → Nat
  | _, hay, [] => hay.length + 1
  | _, [], _ :: _ => 0
  | 0, _ :: _, _ :: _ => 0
  | f + 1, h :: t, n :: ns =>
    if List.isPrefixOf (n :: ns) (h :: t) then
      pyCountAux f (List.drop ns.length t) (n :: ns) + 1
    else
      pyCountAux f t (n :: ns)

/-- Python `str.count(sub)` on the whole string. -/
def pyCount (hay needle : PyStr) : Nat := pyCountAux hay.length hay needle

/-- Index of the leftmost occurrence of `needle` in `hay`, if any
(Python `str.find` before the `-1` encoding). -/
def pyFindIdx (hay needle : PyStr) : Option Nat :=
  (List.range (hay.length + 1)).find? (fun i => List.isPrefixOf needle (List.drop i hay))

/-- Python `str.find(sub)`: leftmost occurrence index, `-1` if absent. -/
def pyFind (hay needle : PyStr) : Int :=
  match pyFindIdx hay needle with
  | some i => (i : Int)
  | none => -1

/-- Index of the rightmost occurrence of `needle` in `hay`, if any
(Python `str.rfind` before the `-1` encoding). -/
def pyRFindIdx (hay needle : PyStr) : Option Nat :=
  ((List.range (hay.length + 1)).filter
    (fun i => List.isPrefixOf needle (List.drop i hay))).getLast?

/-- Python `str.rfind(sub)`: rightmost occurrence index, `-1` if absent. -/
def pyRFind (hay needle : PyStr) : Int :=
  match pyRFindIdx hay needle with
  | some i => (i : Int)
  | none => -1

/-- The `iStr` class: stores the original text and, as computed in
`iStr.__init__`, the lower-cased form. -/
structure iStr where
  orig : PyStr
  lowerCaseMe : PyStr
deriving DecidableEq

/-- Construction `iStr(strMe)`: caches `strMe.lower()`. -/
def iStr.ofStr (strMe : PyStr) : iStr := ⟨strMe, pyLower strMe⟩

/-- Method `iStr.__eq__`: compares the cached lower-cased form with `other.lower()`. -/
def iStr.eq (a : iStr) (other : PyStr) : Bool := a.lowerCaseMe == pyLower other

/-- Method `iStr.__hash__` returns `hash(self.__lowerCaseMe)`; the host's string hash is an
external function, taken here as a parameter. -/
def iStr.hashWith (hashFn : PyStr → Int) (a : iStr) : Int := hashFn a.lowerCaseMe

/-- Python substring membership `needle in hay`. -/
def pyInStr (hay needle : PyStr) : Bool := (pyFindIdx hay needle).isSome

/-- Method `iStr.__contains__`: `other.lower() in self.__lowerCaseMe`. -/
def iStr.containsSub (a : iStr) (other : PyStr) : Bool :=
  pyInStr a.lowerCaseMe (pyLower other)

/-- Method `iStr.count`. -/
def iStr.count (a : iStr) (other : PyStr) : Nat := pyCount a.lowerCaseMe (pyLower other)

/-- Method `iStr.endswith`. -/
def iStr.endswith (a : iStr) (other : PyStr) : Bool :=
  List.isSuffixOf (pyLower other) a.lowerCaseMe

/-- Method `iStr.find`. -/
def iStr.find (a : iStr) (other : PyStr) : Int := pyFind a.lowerCaseMe (pyLower other)

/-- Method `iStr.index`; `none` models the `ValueError` raised when absent. -/
def iStr.index (a : iStr) (other : PyStr) : Option Nat :=
  pyFindIdx a.lowerCaseMe (pyLower other)

/-- Method `iStr.lower`: returns the cached lower-cased form. -/
def iStr.lower (a : iStr) : PyStr := a.lowerCaseMe

/-- Method `iStr.rfind`. -/
def iStr.rfind (a : iStr) (other : PyStr) : Int := pyRFind a.lowerCaseMe (pyLower other)

/-- Method `iStr.rindex`; `none` models the `ValueError` raised when absent. -/
def iStr.rindex (a : iStr) (other : PyStr) : Option Nat :=
  pyRFindIdx a.lowerCaseMe (pyLower other)

/-- Method `iStr.startswith`. -/
def iStr.startswith (a : iStr) (other : PyStr) : Bool :=
  List.isPrefixOf (pyLower other) a.lowerCaseMe

/-- Python `p.rfind(c)` for a single character: index of the last occurrence. -/
def rfind_char (c : Char) : PyStr → Option Nat
  | [] => none
  | x :: xs =>
    match rfind_char c xs with
    | some i => some (i + 1)
    | none => if x = c then some 0 else none

/-- The scan inside `os.path.splitext` ("skip all leading dots"): walks the
characters strictly before the last dot, in order; at the first one that is
not a dot it splits `p` at the last dot, and if all of them are dots it
returns `(p, "")`. -/
def splitext_scan (p : PyStr) (dotIndex : Nat) : List Char → PyStr × PyStr
  | [] => (p, [])
  | c :: rest =>
    if c ≠ '.' then (List.take dotIndex p, List.drop dotIndex p)
    else splitext_scan p dotIndex rest

/-- Python `os.path.splitext` restricted to bare file names (no path
separator), which is how `copy_recursively` and `rename_sequencial` apply it
(to entries of `os.walk` / `os.listdir`). -/
def splitext (p : PyStr) : PyStr × PyStr :=
  match rfind_char '.' p with
  | none => (p, [])
  | some dotIndex => splitext_scan p dotIndex (List.take dotIndex p)

/-- The extension string computed at line 105 of the source:
`os.path.splitext(filename)[1][1:]` (extension without the dot). -/
def extNoDot (filename : PyStr) : PyStr := List.drop 1 (splitext filename).2

lemma splitext_scan_eq (p : PyStr) (d : Nat) :
    ∀ l : List Char, splitext_scan p d l =
      if l.any (fun c => c ≠ '.') then (List.take d p, List.drop d p) else (p, [])
  | [] => by simp [splitext_scan]
  | c :: rest => by
    by_cases hc : c = '.'
    · simp [splitext_scan, hc, splitext_scan_eq p d rest]
    · simp [splitext_scan, hc]

/-- Decimal digit characters, as rendered by `str` on a number. -/
def digitChar : Nat → Char
  | 0 => '0'
  | 1 => '1'
  | 2 => '2'
  | 3 => '3'
  | 4 => '4'
  | 5 => '5'
  | 6 => '6'
  | 7 => '7'
  | 8 => '8'
  | 9 => '9'
  | _ => '*'

/-- Decimal digits of `n`, least significant first, totalised with fuel; fuel
at least `n` always suffices because dividing by ten at least halves any
positive number. -/
def natDigitsRevAux : Nat → Nat → List Nat
  | _, 0 => []
  | 0, _ + 1 => []
  | f + 1, n + 1 => (n + 1) % 10 :: natDigitsRevAux f ((n + 1) / 10)

/-- Decimal digits of `n`, least significant first (`[]` for zero). -/
def natDigitsRev (n : Nat) : List Nat := natDigitsRevAux n n

/-- Python `str(n)` for a natural number: decimal, no sign, no leading
zeros, and `"0"` for zero. -/
def pyNatStr (n : Nat) : PyStr :=
  if n = 0 then ['0'] else ((natDigitsRev n).reverse.map digitChar)

/-- Python `str.zfill(width)` on an unsigned decimal rendering: left-pad
with zeros up to `width` (a leading sign would be kept in front of the
zeros, but `str(seq)` of a sequence number has none). -/
def zfill (s : PyStr) (width : Nat) : PyStr :=
  List.replicate (width - s.length) '0' ++ s

/-- Numeric value of a least-significant-first digit list. -/
def digitsRevVal : List Nat → Nat
  | [] => 0
  | d :: ds => d + 10 * digitsRevVal ds

lemma digitsRevVal_natDigitsRevAux : ∀ f n, n ≤ f → digitsRevVal (natDigitsRevAux f n) = n := by
  intro f
  induction f with
  | zero => intro n hn; interval_cases n; simp [natDigitsRevAux, digitsRevVal]
  | succ f ih =>
    intro n hn
    match n with
    | 0 => simp [natDigitsRevAux, digitsRevVal]
    | m + 1 =>
      have hdiv : (m + 1) / 10 ≤ f := by
        have := Nat.div_lt_self (Nat.succ_pos m) (by omega : 1 < 10)
        omega
      simp only [natDigitsRevAux, digitsRevVal, ih _ hdiv]
      omega

lemma digitsRevVal_natDigitsRev (n : Nat) : digitsRevVal (natDigitsRev n) = n :=
  digitsRevVal_natDigitsRevAux n n (Nat.le_refl n)

lemma natDigitsRev_injective {m n : Nat} (h : natDigitsRev m = natDigitsRev n) : m = n := by
  have := digitsRevVal_natDigitsRev m
  rw [h, digitsRevVal_natDigitsRev] at this
  omega

lemma natDigitsRevAux_lt_ten : ∀ f n, ∀ d ∈ natDigitsRevAux f n, d < 10 := by
  intro f
  induction f with
  | zero => intro n d hd; match n with
    | 0 => simp [natDigitsRevAux] at hd
    | _ + 1 => simp [natDigitsRevAux] at hd
  | succ f ih =>
    intro n d hd
    match n with
    | 0 => simp [natDigitsRevAux] at hd
    | m + 1 =>
      simp only [natDigitsRevAux, List.mem_cons] at hd
      rcases hd with h | h
      · omega
      · exact ih _ _ h

lemma natDigitsRev_lt_ten (n : Nat) : ∀ d ∈ natDigitsRev n, d < 10 :=
  natDigitsRevAux_lt_ten n n

lemma digitChar_inj : ∀ a, a < 10 → ∀ b, b < 10 → digitChar a = digitChar b → a = b := by
  decide

lemma map_digitChar_inj :
    ∀ l1 l2 : List Nat, (∀ x ∈ l1, x < 10) → (∀ x ∈ l2, x < 10) →
      l1.map digitChar = l2.map digitChar → l1 = l2
  | [], [], _, _, _ => rfl
  | [], _ :: _, _, _, h => by simp at h
  | _ :: _, [], _, _, h => by simp at h
  | a :: l1, b :: l2, h1, h2, h => by
    simp only [List.map_cons, List.cons.injEq] at h
    have hab : a = b :=
      digitChar_inj a (h1 a (List.mem_cons_self a l1)) b (h2 b (List.mem_cons_self b l2)) h.1
    have htl := map_digitChar_inj l1 l2 (fun x hx => h1 x (List.mem_cons_of_mem _ hx))
      (fun x hx => h2 x (List.mem_cons_of_mem _ hx)) h.2
    rw [hab, htl]

lemma pyNatStr_injective {m n : Nat} (h : pyNatStr m = pyNatStr n) : m = n := by
  unfold pyNatStr at h
  by_cases hm : m = 0 <;> by_cases hn : n = 0
  · omega
  · exfalso
    rw [if_pos hm, if_neg hn] at h
    have h0 : natDigitsRev n = [0] := by
      have hrev : (natDigitsRev n).reverse.map digitChar = ['0'] := h.symm
      match hd : (natDigitsRev n).reverse with
      | [] => rw [hd] at hrev; simp at hrev
      | [d] =>
        rw [hd] at hrev
        simp only [List.map_cons, List.map_nil, List.cons.injEq, and_true] at hrev
        have hd10 : d < 10 := by
          apply natDigitsRev_lt_ten n
          have : d ∈ (natDigitsRev n).reverse := by rw [hd]; exact List.mem_singleton.mpr rfl
          exact List.mem_reverse.mp this
        have : d = 0 := digitChar_inj d hd10 0 (by omega) hrev
        have := congrArg List.reverse hd
        simp only [List.reverse_reverse] at this
        rw [this]; simp [‹d = 0›]
      | d1 :: d2 :: rest => rw [hd] at hrev; simp at hrev
    have := digitsRevVal_natDigitsRev n
    rw [h0] at this
    simp [digitsRevVal] at this
    omega
  · exfalso
    rw [if_neg hm, if_pos hn] at h
    have h0 : natDigitsRev m = [0] := by
      have hrev : (natDigitsRev m).reverse.map digitChar = ['0'] := h
      match hd : (natDigitsRev m).reverse with
      | [] => rw [hd] at hrev; simp at hrev
      | [d] =>
        rw [hd] at hrev
        simp only [List.map_cons, List.map_nil, List.cons.injEq, and_true] at hrev
        have hd10 : d < 10 := by
          apply natDigitsRev_lt_ten m
          have : d ∈ (natDigitsRev m).reverse := by rw [hd]; exact List.mem_singleton.mpr rfl
          exact List.mem_reverse.mp this
        have : d = 0 := digitChar_inj d hd10 0 (by omega) hrev
        have := congrArg List.reverse hd
        simp only [List.reverse_reverse] at this
        rw [this]; simp [‹d = 0›]
      | d1 :: d2 :: rest => rw [hd] at hrev; simp at hrev
    have := digitsRevVal_natDigitsRev m
    rw [h0] at this
    simp [digitsRevVal] at this
    omega
  · rw [if_neg hm, if_neg hn] at h
    have hrev : (natDigitsRev m).reverse = (natDigitsRev n).reverse :=
      map_digitChar_inj _ _
        (fun x hx => natDigitsRev_lt_ten m x (List.mem_reverse.mp hx))
        (fun x hx => natDigitsRev_lt_ten n x (List.mem_reverse.mp hx)) h
    exact natDigitsRev_injective (List.reverse_injective hrev)

lemma pyNatStr_ne_nil (n : Nat) : pyNatStr n ≠ [] := by
  unfold pyNatStr
  by_cases hn : n = 0
  · simp [hn]
  · rw [if_neg hn]
    intro hcon
    have hnil : natDigitsRev n = [] := by
      have hrev := List.map_eq_nil_iff.mp hcon
      simpa using congrArg List.reverse hrev
    have hval := digitsRevVal_natDigitsRev n
    rw [hnil] at hval
    simp only [digitsRevVal] at hval
    omega

lemma digitChar_ne_slash : ∀ d, d < 10 → digitChar d ≠ '/' := by decide

lemma pyNatStr_head_digit (n : Nat) (c : Char) (h : (pyNatStr n).head? = some c) :
    c ≠ '/' := by
  unfold pyNatStr at h
  by_cases hn : n = 0
  · rw [if_pos hn] at h
    simp only [List.head?] at h
    intro hc
    rw [hc] at h
    exact absurd (Option.some.inj h) (by decide)
  · rw [if_neg hn] at h
    match hd : (natDigitsRev n).reverse with
    | [] => rw [hd] at h; simp at h
    | d :: rest =>
      rw [hd] at h
      simp only [List.map_cons, List.head?] at h
      have hd10 : d < 10 := by
        apply natDigitsRev_lt_ten n
        apply List.mem_reverse.mp
        rw [hd]
        exact List.mem_cons_self d rest
      have : c = digitChar d := (Option.some.inj h).symm
      rw [this]
      exact digitChar_ne_slash d hd10

/-- Python `os.path.flatten(a, b)` (posix rules for two components): `b` if it
is absolute, otherwise `a` glued to `b` with a separator unless `a` is empty
or already ends in one. -/
def pjoin (a b : PyStr) : PyStr :=
  if b.head? = some '/' then b
  else if a = [] ∨ a.getLast? = some '/' then a ++ b
  else a ++ '/' :: b

/-- The candidate destination path built in the loop body at lines 113-114:
`os.path.flatten(dest, splitext(filename)[0] + str(seq) + splitext(filename)[1])`. -/
def candidate (dest filename : PyStr) (seq : Nat) : PyStr :=
  pjoin dest ((splitext filename).1 ++ pyNatStr seq ++ (splitext filename).2)

/-- The `while os.path.isfile(dest_path)` loop of `copy_recursively`
(lines 111-115), with the live file-system check abstracted as `isfile` and
an explicit fuel bound on the number of loop-body executions (the Python
loop itself is unbounded; see the termination claims). Returns the resolved
destination path, or `none` when the fuel is exhausted while the current
candidate is still occupied. -/
def find_dest_path (isfile : PyStr → Bool) (dest filename : PyStr) :
    Nat → PyStr → Nat → Option PyStr
  | 0, dest_path, _ => if isfile dest_path then none else some dest_path
  | fuel + 1, dest_path, seq =>
    if isfile dest_path then
      find_dest_path isfile dest filename fuel (candidate dest filename seq) (seq + 1)
    else some dest_path

/-- The extension-filter test at line 106: `ext is None or extension == ext`
where `extension = iStr(os.path.splitext(filename)[1][1:])`. -/
def ext_matches (ext : Option PyStr) (filename : PyStr) : Bool :=
  match ext with
  | none => true
  | some e => iStr.eq (iStr.ofStr (extNoDot filename)) e

/-- State threaded through `copy_recursively`: the set of existing regular
files (destination directory included), the `copyfile` calls performed so
far (source path, destination path) in order, and `file_counter`. -/
structure CopyAcc where
  fs : List PyStr
  writes : List (PyStr × PyStr)
  file_counter : Nat
deriving DecidableEq

/-- The body of the inner `for filename in files` loop (lines 103-118) for a
single `(root, filename)` pair: filter by extension, resolve the destination
path with the collision loop, then `copyfile` (modelled as recording the
write and adding the destination path to the set of existing files). -/
def copy_step (dest : PyStr) (ext : Option PyStr) (fuel : Nat) (acc : CopyAcc)
    (rf : PyStr × PyStr) : Option CopyAcc :=
  if ext_matches ext rf.2 then
    match find_dest_path (fun p => decide (p ∈ acc.fs)) dest rf.2 fuel
        (pjoin dest rf.2) 0 with
    | none => none
    | some dp =>
      some ⟨dp :: acc.fs, acc.writes ++ [(pjoin rf.1 rf.2, dp)], acc.file_counter + 1⟩
  else some acc

/-- The traversal of `copy_recursively`: the `(root, filename)` pairs yielded
by `os.walk(src)` are taken as an input list in host enumeration order. -/
def copy_walk (dest : PyStr) (ext : Option PyStr) (fuel : Nat) :
    List (PyStr × PyStr) → CopyAcc → Option CopyAcc
  | [], acc => some acc
  | rf :: rest, acc =>
    match copy_step dest ext fuel acc rf with
    | none => none
    | some acc1 => copy_walk dest ext fuel rest acc1

/-- Function `copy_recursively(src, dest, ext)`: starts from an arbitrary initial set
`fs0` of existing regular files, an empty write log and `file_counter = 0`.
The count reported by the final `logger.info` line is `file_counter` of the
result. -/
def copy_recursively (walk : List (PyStr × PyStr)) (dest : PyStr)
    (ext : Option PyStr) (fuel : Nat) (fs0 : List PyStr) : Option CopyAcc :=
  copy_walk dest ext fuel walk ⟨fs0, [], 0⟩

lemma find_dest_path_free (isfile : PyStr → Bool) (dest filename : PyStr) :
    ∀ fuel cur seq, isfile cur = false →
      find_dest_path isfile dest filename fuel cur seq = some cur
  | 0, cur, seq, h => by simp [find_dest_path, h]
  | fuel + 1, cur, seq, h => by simp [find_dest_path, h]

lemma find_dest_path_not_isfile (isfile : PyStr → Bool) (dest filename : PyStr) :
    ∀ fuel cur seq dp, find_dest_path isfile dest filename fuel cur seq = some dp →
      isfile dp = false
  | 0, cur, seq, dp, h => by
    cases hfc : isfile cur with
    | true => simp [find_dest_path, hfc] at h
    | false =>
      simp [find_dest_path, hfc] at h
      rw [← h]
      exact hfc
  | fuel + 1, cur, seq, dp, h => by
    cases hfc : isfile cur with
    | true =>
      exact find_dest_path_not_isfile isfile dest filename fuel _ _ dp
        (by simpa [find_dest_path, hfc] using h)
    | false =>
      simp [find_dest_path, hfc] at h
      rw [← h]
      exact hfc

lemma find_dest_path_sound (isfile : PyStr → Bool) (dest filename : PyStr) :
    ∀ fuel cur seq dp, find_dest_path isfile dest filename fuel cur seq = some dp →
      (isfile cur = false ∧ dp = cur) ∨
      (isfile cur = true ∧ ∃ k, seq ≤ k ∧ dp = candidate dest filename k ∧
        isfile (candidate dest filename k) = false ∧
        ∀ j, seq ≤ j → j < k → isfile (candidate dest filename j) = true)
  | 0, cur, seq, dp, h => by
    cases hfc : isfile cur with
    | true => simp [find_dest_path, hfc] at h
    | false =>
      simp [find_dest_path, hfc] at h
      exact Or.inl ⟨rfl, h.symm⟩
  | fuel + 1, cur, seq, dp, h => by
    cases hfc : isfile cur with
    | false =>
      simp [find_dest_path, hfc] at h
      exact Or.inl ⟨rfl, h.symm⟩
    | true =>
      have h' : find_dest_path isfile dest filename fuel
          (candidate dest filename seq) (seq + 1) = some dp := by
        simpa [find_dest_path, hfc] using h
      rcases find_dest_path_sound isfile dest filename fuel _ _ dp h' with
        ⟨hfree, hdp⟩ | ⟨hocc, k, hk, hdp, hkfree, hchain⟩
      · refine Or.inr ⟨rfl, seq, Nat.le_refl _, hdp, hfree, ?_⟩
        intro j h1 h2
        exact absurd h2 (Nat.not_lt.mpr h1)
      · refine Or.inr ⟨rfl, k, by omega, hdp, hkfree, ?_⟩
        intro j h1 h2
        rcases Nat.eq_or_lt_of_le h1 with he | hlt
        · rw [← he]
          exact hocc
        · exact hchain j hlt h2

lemma find_dest_path_reaches (isfile : PyStr → Bool) (dest filename : PyStr) :
    ∀ k fuel cur seq, isfile cur = true →
      isfile (candidate dest filename (seq + k)) = false →
      (∀ j, seq ≤ j → j < seq + k → isfile (candidate dest filename j) = true) →
      k + 1 ≤ fuel →
      find_dest_path isfile dest filename fuel cur seq =
        some (candidate dest filename (seq + k)) := by
  intro k
  induction k with
  | zero =>
    intro fuel cur seq hcur hfree hchain hfuel
    obtain ⟨f, rfl⟩ : ∃ f, fuel = f + 1 := ⟨fuel - 1, by omega⟩
    rw [Nat.add_zero] at hfree ⊢
    simp only [find_dest_path, hcur, if_true]
    exact find_dest_path_free isfile dest filename f _ _ hfree
  | succ k ih =>
    intro fuel cur seq hcur hfree hchain hfuel
    obtain ⟨f, rfl⟩ : ∃ f, fuel = f + 1 := ⟨fuel - 1, by omega⟩
    simp only [find_dest_path, hcur, if_true]
    have hc : isfile (candidate dest filename seq) = true :=
      hchain seq (Nat.le_refl _) (by omega)
    have heq : seq + 1 + k = seq + (k + 1) := by omega
    have hres := ih f (candidate dest filename seq) (seq + 1) hc
      (by rw [heq]; exact hfree)
      (fun j h1 h2 => hchain j (by omega) (by omega))
      (by omega)
    rw [heq] at hres
    exact hres

lemma find_dest_path_all_occupied (isfile : PyStr → Bool) (dest filename : PyStr)
    (hall : ∀ k, isfile (candidate dest filename k) = true) :
    ∀ fuel cur seq, isfile cur = true →
      find_dest_path isfile dest filename fuel cur seq = none
  | 0, cur, seq, h => by simp [find_dest_path, h]
  | fuel + 1, cur, seq, h => by
    simp only [find_dest_path, h, if_true]
    exact find_dest_path_all_occupied isfile dest filename hall fuel _ _ (hall seq)

lemma cand_name_head_ne_slash (base ex : PyStr) (hb : base.head? ≠ some '/') (k : Nat) :
    (base ++ pyNatStr k ++ ex).head? ≠ some '/' := by
  match base with
  | [] =>
    simp only [List.nil_append]
    rw [List.head?_append_of_ne_nil _ (pyNatStr_ne_nil k)]
    intro hcon
    exact pyNatStr_head_digit k '/' hcon rfl
  | c :: t =>
    simp only [List.cons_append, List.head?_cons] at hb ⊢
    exact hb

lemma candidate_name_inj (base ex : PyStr) {k1 k2 : Nat}
    (h : base ++ pyNatStr k1 ++ ex = base ++ pyNatStr k2 ++ ex) : k1 = k2 := by
  have h1 : base ++ pyNatStr k1 = base ++ pyNatStr k2 := List.append_cancel_right h
  exact pyNatStr_injective (List.append_cancel_left h1)

lemma candidate_inj (dest filename : PyStr)
    (hb : (splitext filename).1.head? ≠ some '/') :
    ∀ k1 k2, candidate dest filename k1 = candidate dest filename k2 → k1 = k2 := by
  intro k1 k2 h
  unfold candidate pjoin at h
  rw [if_neg (cand_name_head_ne_slash _ _ hb k1),
      if_neg (cand_name_head_ne_slash _ _ hb k2)] at h
  by_cases hd : dest = [] ∨ dest.getLast? = some '/'
  · rw [if_pos hd, if_pos hd] at h
    exact candidate_name_inj _ _ (List.append_cancel_left h)
  · rw [if_neg hd, if_neg hd] at h
    have h2 := List.append_cancel_left h
    simp only [List.cons.injEq, true_and] at h2
    exact candidate_name_inj _ _ h2

lemma exists_free_candidate (dest filename : PyStr) (fs : List PyStr)
    (hb : (splitext filename).1.head? ≠ some '/') :
    ∃ k, k ≤ fs.length ∧ candidate dest filename k ∉ fs := by
  by_contra hcon
  push_neg at hcon
  have hnodup : ((List.range (fs.length + 1)).map (candidate dest filename)).Nodup :=
    List.Nodup.map_on (fun x _ y _ hxy => candidate_inj dest filename hb x y hxy)
      (List.nodup_range _)
  have hsub : ((List.range (fs.length + 1)).map (candidate dest filename)).toFinset ⊆
      fs.toFinset := by
    intro p hp
    rw [List.mem_toFinset] at hp ⊢
    rcases List.mem_map.mp hp with ⟨k, hk, rfl⟩
    exact hcon k (Nat.lt_succ_iff.mp (List.mem_range.mp hk))
  have h1 := List.toFinset_card_of_nodup hnodup
  have h2 := Finset.card_le_card hsub
  have h3 := List.toFinset_card_le fs
  rw [h1] at h2
  simp only [List.length_map, List.length_range] at h2
  omega

lemma copy_walk_spec (dest : PyStr) (ext : Option PyStr) (fuel : Nat) :
    ∀ (walk : List (PyStr × PyStr)) (acc accF : CopyAcc),
      copy_walk dest ext fuel walk acc = some accF →
      (∀ p ∈ acc.fs, p ∈ accF.fs) ∧
      ∃ nw, accF.writes = acc.writes ++ nw ∧
        (∀ w ∈ nw, w.2 ∉ acc.fs ∧ w.2 ∈ accF.fs) ∧
        (nw.map Prod.snd).Nodup ∧
        nw.map Prod.fst =
          (walk.filter (fun rf => ext_matches ext rf.2)).map (fun rf => pjoin rf.1 rf.2) ∧
        accF.file_counter = acc.file_counter + nw.length
  | [], acc, accF, h => by
    simp only [copy_walk, Option.some.injEq] at h
    subst h
    exact ⟨fun p hp => hp, [], by simp⟩
  | rf :: rest, acc, accF, h => by
    cases hstep : copy_step dest ext fuel acc rf with
    | none => simp [copy_walk, hstep] at h
    | some acc1 =>
      simp only [copy_walk, hstep] at h
      obtain ⟨hmono, nw', hw', hprop', hnodup', hfst', hcnt'⟩ :=
        copy_walk_spec dest ext fuel rest acc1 accF h
      cases hm : ext_matches ext rf.2 with
      | false =>
        have hacc1 : acc1 = acc := by
          unfold copy_step at hstep
          rw [hm] at hstep
          simpa using hstep.symm
        subst hacc1
        refine ⟨hmono, nw', hw', hprop', hnodup', ?_, hcnt'⟩
        rw [hfst', List.filter_cons_of_neg (by simp [hm])]
      | true =>
        cases hfind : find_dest_path (fun p => decide (p ∈ acc.fs)) dest rf.2 fuel
            (pjoin dest rf.2) 0 with
        | none =>
          unfold copy_step at hstep
          rw [hm, if_pos rfl, hfind] at hstep
          simp at hstep
        | some dp =>
          have hacc1 : acc1 = ⟨dp :: acc.fs, acc.writes ++ [(pjoin rf.1 rf.2, dp)],
              acc.file_counter + 1⟩ := by
            unfold copy_step at hstep
            rw [hm, if_pos rfl, hfind] at hstep
            simpa using hstep.symm
          subst hacc1
          have hdp_free : dp ∉ acc.fs := by
            have := find_dest_path_not_isfile (fun p => decide (p ∈ acc.fs)) dest rf.2
              fuel _ _ dp hfind
            exact of_decide_eq_false this
          have hdp_in : dp ∈ accF.fs := hmono dp (List.mem_cons_self dp acc.fs)
          refine ⟨fun p hp => hmono p (List.mem_cons_of_mem dp hp),
            (pjoin rf.1 rf.2, dp) :: nw', ?_, ?_, ?_, ?_, ?_⟩
          · rw [hw', List.append_assoc, List.singleton_append]
          · intro w hw
            rcases List.mem_cons.mp hw with rfl | hw
            · exact ⟨hdp_free, hdp_in⟩
            · obtain ⟨hnot, hin⟩ := hprop' w hw
              exact ⟨fun hmem => hnot (List.mem_cons_of_mem dp hmem), hin⟩
          · rw [List.map_cons]
            refine List.nodup_cons.mpr ⟨?_, hnodup'⟩
            intro hmem
            rcases List.mem_map.mp hmem with ⟨w, hw, hweq⟩
            exact (hprop' w hw).1 (by rw [hweq]; exact List.mem_cons_self dp acc.fs)
          · rw [List.map_cons, List.filter_cons_of_pos (by simp [hm]), List.map_cons, hfst']
          · rw [hcnt']
            simp only [List.length_cons]
            omega

/-- C1: the destination path finally written for each copied file was not an
existing regular file at the moment of the copy: no write of a run targets a
path that existed when the run started, no two writes of a run share a
target, and in a second run over the same source and destination every write
avoids all files present after the first run, so the first run's copies stay
intact and the second run's copies get distinct new names. -/
theorem C1_never_overwrites (walk1 walk2 : List (PyStr × PyStr)) (dest : PyStr)
    (ext : Option PyStr) (fuel : Nat) (fs0 : List PyStr) (acc1 acc2 : CopyAcc)
    (h1 : copy_recursively walk1 dest ext fuel fs0 = some acc1)
    (h2 : copy_recursively walk2 dest ext fuel acc1.fs = some acc2) :
    (∀ w ∈ acc1.writes, w.2 ∉ fs0) ∧
    (acc1.writes.map Prod.snd).Nodup ∧
    (∀ w ∈ acc2.writes, w.2 ∉ acc1.fs) ∧
    (∀ w1 ∈ acc1.writes, ∀ w2 ∈ acc2.writes, w1.2 ≠ w2.2) := by
  obtain ⟨hm1, nw1, hw1, hprop1, hnodup1, -, -⟩ :=
    copy_walk_spec dest ext fuel walk1 ⟨fs0, [], 0⟩ acc1 h1
  obtain ⟨hm2, nw2, hw2, hprop2, hnodup2, -, -⟩ :=
    copy_walk_spec dest ext fuel walk2 ⟨acc1.fs, [], 0⟩ acc2 h2
  simp only [List.nil_append] at hw1 hw2
  refine ⟨?_, ?_, ?_, ?_⟩
  · intro w hw
    exact (hprop1 w (by rw [← hw1]; exact hw)).1
  · rw [hw1]; exact hnodup1
  · intro w hw
    exact (hprop2 w (by rw [← hw2]; exact hw)).1
  · intro w1 hmem1 w2 hmem2
    have hin1 : w1.2 ∈ acc1.fs := (hprop1 w1 (by rw [← hw1]; exact hmem1)).2
    have hnotin2 : w2.2 ∉ acc1.fs := (hprop2 w2 (by rw [← hw2]; exact hmem2)).1
    intro hcon
    rw [hcon] at hin1
    exact hnotin2 hin1

theorem C1_witness :
    copy_recursively [(pstr "s", pstr "a.txt")] (pstr "d") none 5 [pstr "d/a.txt"] =
      some ⟨[pstr "d/a0.txt", pstr "d/a.txt"], [(pstr "s/a.txt", pstr "d/a0.txt")], 1⟩ ∧
    copy_recursively [(pstr "s", pstr "a.txt")] (pstr "d") none 5
        (CopyAcc.fs ⟨[pstr "d/a0.txt", pstr "d/a.txt"], [(pstr "s/a.txt", pstr "d/a0.txt")], 1⟩) =
      some ⟨[pstr "d/a1.txt", pstr "d/a0.txt", pstr "d/a.txt"],
        [(pstr "s/a.txt", pstr "d/a1.txt")], 1⟩ ∧
    ((∀ w ∈ (⟨[pstr "d/a0.txt", pstr "d/a.txt"], [(pstr "s/a.txt", pstr "d/a0.txt")], 1⟩ :
        CopyAcc).writes, w.2 ∉ [pstr "d/a.txt"]) ∧
      ((⟨[pstr "d/a0.txt", pstr "d/a.txt"], [(pstr "s/a.txt", pstr "d/a0.txt")], 1⟩ :
        CopyAcc).writes.map Prod.snd).Nodup ∧
      (∀ w ∈ (⟨[pstr "d/a1.txt", pstr "d/a0.txt", pstr "d/a.txt"],
          [(pstr "s/a.txt", pstr "d/a1.txt")], 1⟩ : CopyAcc).writes,
        w.2 ∉ (⟨[pstr "d/a0.txt", pstr "d/a.txt"],
          [(pstr "s/a.txt", pstr "d/a0.txt")], 1⟩ : CopyAcc).fs) ∧
      (∀ w1 ∈ (⟨[pstr "d/a0.txt", pstr "d/a.txt"], [(pstr "s/a.txt", pstr "d/a0.txt")], 1⟩ :
          CopyAcc).writes,
        ∀ w2 ∈ (⟨[pstr "d/a1.txt", pstr "d/a0.txt", pstr "d/a.txt"],
          [(pstr "s/a.txt", pstr "d/a1.txt")], 1⟩ : CopyAcc).writes, w1.2 ≠ w2.2)) :=
  ⟨by decide, by decide,
    C1_never_overwrites [(pstr "s", pstr "a.txt")] [(pstr "s", pstr "a.txt")]
      (pstr "d") none 5 [pstr "d/a.txt"] _ _ (by decide) (by decide)⟩

/-- C2: when the plain destination path is occupied, the candidates probed
are exactly base-name + sequence number + extension for 0, 1, 2, …, the file
is copied to the first unoccupied candidate in that order, and all earlier
candidates were re-checked and found occupied. -/
theorem C2_probe_sequence (dest : PyStr) (ext : Option PyStr) (fuel : Nat)
    (acc acc' : CopyAcc) (root filename : PyStr)
    (hmatch : ext_matches ext filename = true)
    (hocc : pjoin dest filename ∈ acc.fs)
    (hstep : copy_step dest ext fuel acc (root, filename) = some acc') :
    ∃ k, acc'.writes = acc.writes ++ [(pjoin root filename, candidate dest filename k)] ∧
      candidate dest filename k ∉ acc.fs ∧
      ∀ j, j < k → candidate dest filename j ∈ acc.fs := by
  cases hfind : find_dest_path (fun p => decide (p ∈ acc.fs)) dest filename fuel
      (pjoin dest filename) 0 with
  | none =>
    unfold copy_step at hstep
    rw [show (root, filename).2 = filename from rfl, hmatch, if_pos rfl, hfind] at hstep
    simp at hstep
  | some dp =>
    have hacc' : acc' = ⟨dp :: acc.fs, acc.writes ++ [(pjoin root filename, dp)],
        acc.file_counter + 1⟩ := by
      unfold copy_step at hstep
      rw [show (root, filename).2 = filename from rfl, hmatch, if_pos rfl, hfind] at hstep
      simpa using hstep.symm
    rcases find_dest_path_sound (fun p => decide (p ∈ acc.fs)) dest filename fuel _ _ dp
        hfind with ⟨hfree, -⟩ | ⟨-, k, -, hdp, hkfree, hchain⟩
    · rw [decide_eq_false_iff_not] at hfree
      exact absurd hocc hfree
    · refine ⟨k, ?_, ?_, ?_⟩
      · rw [hacc', ← hdp]
      · exact of_decide_eq_false hkfree
      · intro j hj
        exact of_decide_eq_true (hchain j (Nat.zero_le j) hj)

theorem C2_witness :
    ext_matches none (pstr "a.txt") = true ∧
    pjoin (pstr "d") (pstr "a.txt") ∈ [pstr "d/a.txt", pstr "d/a0.txt"] ∧
    copy_step (pstr "d") none 5
        ⟨[pstr "d/a.txt", pstr "d/a0.txt"], [], 0⟩ (pstr "s", pstr "a.txt") =
      some ⟨[pstr "d/a1.txt", pstr "d/a.txt", pstr "d/a0.txt"],
        [(pstr "s/a.txt", pstr "d/a1.txt")], 1⟩ ∧
    (∃ k, (⟨[pstr "d/a1.txt", pstr "d/a.txt", pstr "d/a0.txt"],
        [(pstr "s/a.txt", pstr "d/a1.txt")], 1⟩ : CopyAcc).writes =
        (⟨[pstr "d/a.txt", pstr "d/a0.txt"], [], 0⟩ : CopyAcc).writes ++
          [(pjoin (pstr "s") (pstr "a.txt"), candidate (pstr "d") (pstr "a.txt") k)] ∧
      candidate (pstr "d") (pstr "a.txt") k ∉
        (⟨[pstr "d/a.txt", pstr "d/a0.txt"], [], 0⟩ : CopyAcc).fs ∧
      ∀ j, j < k → candidate (pstr "d") (pstr "a.txt") j ∈
        (⟨[pstr "d/a.txt", pstr "d/a0.txt"], [], 0⟩ : CopyAcc).fs) :=
  ⟨by decide, by decide, by decide,
    C2_probe_sequence (pstr "d") none 5 _ _ (pstr "s") (pstr "a.txt")
      (by decide) (by decide) (by decide)⟩

/-- C5: a run of `copy_recursively` performs one copy exactly per walked file
whose extension passes the filter, in walk order (so the files copied are
exactly the matching ones), and the reported `file_counter` equals the
number of files written; the filter accepts every file when absent and
otherwise compares the extracted extension to the filter case-insensitively. -/
theorem C5_copies_exactly (walk : List (PyStr × PyStr)) (dest : PyStr)
    (ext : Option PyStr) (fuel : Nat) (fs0 : List PyStr) (acc : CopyAcc)
    (h : copy_recursively walk dest ext fuel fs0 = some acc) :
    acc.writes.map Prod.fst =
      (walk.filter (fun rf => ext_matches ext rf.2)).map (fun rf => pjoin rf.1 rf.2) ∧
    acc.file_counter = acc.writes.length ∧
    (∀ filename : PyStr, ext_matches none filename = true) ∧
    (∀ e filename : PyStr, ext_matches (some e) filename = true ↔
      pyLower (extNoDot filename) = pyLower e) := by
  obtain ⟨-, nw, hw, -, -, hfst, hcnt⟩ :=
    copy_walk_spec dest ext fuel walk ⟨fs0, [], 0⟩ acc h
  simp only [List.nil_append] at hw
  refine ⟨?_, ?_, fun _ => rfl, ?_⟩
  · rw [hw]; exact hfst
  · rw [hw, hcnt]; simp
  · intro e filename
    simp [ext_matches, iStr.eq, iStr.ofStr]

theorem C5_witness :
    copy_recursively [(pstr "s", pstr "a.txt"), (pstr "s", pstr "b.jpg"),
        (pstr "t", pstr "a.txt")] (pstr "d") (some (pstr "TXT")) 5 [] =
      some ⟨[pstr "d/a0.txt", pstr "d/a.txt"],
        [(pstr "s/a.txt", pstr "d/a.txt"), (pstr "t/a.txt", pstr "d/a0.txt")], 2⟩ ∧
    ((⟨[pstr "d/a0.txt", pstr "d/a.txt"],
        [(pstr "s/a.txt", pstr "d/a.txt"), (pstr "t/a.txt", pstr "d/a0.txt")], 2⟩ :
        CopyAcc).writes.map Prod.fst =
      (([(pstr "s", pstr "a.txt"), (pstr "s", pstr "b.jpg"),
          (pstr "t", pstr "a.txt")].filter
        (fun rf => ext_matches (some (pstr "TXT")) rf.2)).map (fun rf => pjoin rf.1 rf.2)) ∧
      (⟨[pstr "d/a0.txt", pstr "d/a.txt"],
        [(pstr "s/a.txt", pstr "d/a.txt"), (pstr "t/a.txt", pstr "d/a0.txt")], 2⟩ :
        CopyAcc).file_counter =
      (⟨[pstr "d/a0.txt", pstr "d/a.txt"],
        [(pstr "s/a.txt", pstr "d/a.txt"), (pstr "t/a.txt", pstr "d/a0.txt")], 2⟩ :
        CopyAcc).writes.length ∧
      (∀ filename : PyStr, ext_matches none filename = true) ∧
      (∀ e filename : PyStr, ext_matches (some e) filename = true ↔
        pyLower (extNoDot filename) = pyLower e)) :=
  ⟨by decide,
    C5_copies_exactly [(pstr "s", pstr "a.txt"), (pstr "s", pstr "b.jpg"),
      (pstr "t", pstr "a.txt")] (pstr "d") (some (pstr "TXT")) 5 [] _ (by decide)⟩

/-- C9: the collision loop has no attempt bound: if the plain path is free it
returns at once; if some candidate is free it returns the first free one as
soon as the fuel covers its index, for every larger fuel as well; with a
finite set of existing files a free candidate always exists (at an index at
most the number of files); and if the plain path and every candidate were
occupied, no amount of fuel makes the loop return — it would never
terminate. -/
theorem C9_unbounded_probing (isfile : PyStr → Bool) (dest filename : PyStr)
    (fs : List PyStr) :
    (isfile (pjoin dest filename) = false →
      ∀ fuel, find_dest_path isfile dest filename fuel (pjoin dest filename) 0 =
        some (pjoin dest filename)) ∧
    (∀ k, isfile (pjoin dest filename) = true →
      isfile (candidate dest filename k) = false →
      (∀ j, j < k → isfile (candidate dest filename j) = true) →
      ∀ fuel, k + 1 ≤ fuel →
        find_dest_path isfile dest filename fuel (pjoin dest filename) 0 =
          some (candidate dest filename k)) ∧
    ((splitext filename).1.head? ≠ some '/' →
      ∃ k, k ≤ fs.length ∧ candidate dest filename k ∉ fs) ∧
    (isfile (pjoin dest filename) = true →
      (∀ k, isfile (candidate dest filename k) = true) →
      ∀ fuel, find_dest_path isfile dest filename fuel (pjoin dest filename) 0 = none) := by
  refine ⟨?_, ?_, ?_, ?_⟩
  · intro hfree fuel
    exact find_dest_path_free isfile dest filename fuel _ _ hfree
  · intro k hcur hfree hchain fuel hfuel
    have hres := find_dest_path_reaches isfile dest filename k fuel _ 0 hcur
      (by rw [Nat.zero_add]; exact hfree)
      (fun j _ h2 => hchain j (by omega)) hfuel
    rw [Nat.zero_add] at hres
    exact hres
  · intro hb
    exact exists_free_candidate dest filename fs hb
  · intro hcur hall fuel
    exact find_dest_path_all_occupied isfile dest filename hall fuel _ _ hcur

theorem C9_witness :
    find_dest_path (fun _ => false) (pstr "d") (pstr "a.txt") 3
        (pjoin (pstr "d") (pstr "a.txt")) 0 = some (pjoin (pstr "d") (pstr "a.txt")) ∧
    find_dest_path (fun p => decide (p ∈ [pstr "d/a.txt", pstr "d/a0.txt"])) (pstr "d")
        (pstr "a.txt") 5 (pjoin (pstr "d") (pstr "a.txt")) 0 =
      some (candidate (pstr "d") (pstr "a.txt") 1) ∧
    (∃ k, k ≤ ([pstr "d/a.txt"] : List PyStr).length ∧
      candidate (pstr "d") (pstr "a.txt") k ∉ [pstr "d/a.txt"]) ∧
    find_dest_path (fun _ => true) (pstr "d") (pstr "a.txt") 7
        (pjoin (pstr "d") (pstr "a.txt")) 0 = none :=
  ⟨(C9_unbounded_probing (fun _ => false) (pstr "d") (pstr "a.txt") []).1 rfl 3,
    (C9_unbounded_probing (fun p => decide (p ∈ [pstr "d/a.txt", pstr "d/a0.txt"]))
      (pstr "d") (pstr "a.txt") []).2.1 1 (by decide) (by decide) (by decide) 5 (by omega),
    (C9_unbounded_probing (fun _ => true) (pstr "d") (pstr "a.txt")
      [pstr "d/a.txt"]).2.2.1 (by decide),
    (C9_unbounded_probing (fun _ => true) (pstr "d") (pstr "a.txt") []).2.2.2 rfl
      (fun _ => rfl) 7⟩

/-- C8: `iStr` comparisons are case-insensitive: equality with a plain string
operand holds exactly when the two lower-cased forms agree (so any two
strings differing only in letter case compare equal), the hash — the host
hash applied to the cached lower-cased form — agrees for any two instances
with the same lower-cased form, every substring query equals the
corresponding plain-string operation applied to the lower-cased forms of
both operands, and `lower()` returns the form cached at construction. -/
theorem C8_iStr_case_insensitive (a b : PyStr) :
    (iStr.eq (iStr.ofStr a) b = true ↔ pyLower a = pyLower b) ∧
    (pyLower a = pyLower b → ∀ hashFn : PyStr → Int,
      iStr.hashWith hashFn (iStr.ofStr a) = iStr.hashWith hashFn (iStr.ofStr b)) ∧
    iStr.containsSub (iStr.ofStr a) b = pyInStr (pyLower a) (pyLower b) ∧
    iStr.count (iStr.ofStr a) b = pyCount (pyLower a) (pyLower b) ∧
    iStr.find (iStr.ofStr a) b = pyFind (pyLower a) (pyLower b) ∧
    iStr.rfind (iStr.ofStr a) b = pyRFind (pyLower a) (pyLower b) ∧
    iStr.index (iStr.ofStr a) b = pyFindIdx (pyLower a) (pyLower b) ∧
    iStr.rindex (iStr.ofStr a) b = pyRFindIdx (pyLower a) (pyLower b) ∧
    iStr.startswith (iStr.ofStr a) b = List.isPrefixOf (pyLower b) (pyLower a) ∧
    iStr.endswith (iStr.ofStr a) b = List.isSuffixOf (pyLower b) (pyLower a) ∧
    iStr.lower (iStr.ofStr a) = pyLower a := by
  refine ⟨?_, ?_, rfl, rfl, rfl, rfl, rfl, rfl, rfl, rfl, rfl⟩
  · simp [iStr.eq, iStr.ofStr]
  · intro h hashFn
    simp [iStr.hashWith, iStr.ofStr, h]

theorem C8_witness :
    pyLower (pstr "File") = pyLower (pstr "FiLe") ∧
    iStr.hashWith (fun s => (s.length : Int)) (iStr.ofStr (pstr "File")) =
      iStr.hashWith (fun s => (s.length : Int)) (iStr.ofStr (pstr "FiLe")) :=
  ⟨by decide, (C8_iStr_case_insensitive (pstr "File") (pstr "FiLe")).2.1 (by decide) _⟩

/-- C4 (counterexample): a name of the form ".name" does not get extension
"name" as the claim states: `os.path.splitext` treats a lone leading dot as
part of the base name, so the extension used in the filter comparison is
empty for ".name". -/
theorem C4_counterexample :
    extNoDot (pstr ".name") ≠ pstr "name" ∧ extNoDot (pstr ".name") = [] := by decide

/-- C4 (amended): the extension used for the case-insensitive filter
comparison is the text after the last dot when at least one character before
that dot is not a dot; it is the empty string when the name has no dot, or
when every character before the last dot is itself a dot (leading dots are
part of the base name) — in particular ".name" has extension "". -/
theorem C4_extension_rule (p : PyStr) :
    extNoDot p =
      match rfind_char '.' p with
      | none => []
      | some d =>
        if (List.take d p).any (fun c => c ≠ '.') then List.drop (d + 1) p else [] := by
  unfold extNoDot splitext
  cases hr : rfind_char '.' p with
  | none => rfl
  | some d =>
    show List.drop 1 (splitext_scan p d (List.take d p)).2 =
      if (List.take d p).any (fun c => c ≠ '.') then List.drop (d + 1) p else []
    rw [splitext_scan_eq p d (List.take d p)]
    cases hany : (List.take d p).any (fun c => c ≠ '.') with
    | true => simp [hany, List.drop_drop, Nat.add_comm]
    | false => simp [hany]

/-- Result of `rename_sequencial`: the renames performed, in order
(old path, new path), and the final value of `seq`.  The count reported by
the final `logger.info("%d files renamed", seq)` line is this final `seq`. -/
structure RenameAcc where
  renames : List (PyStr × PyStr)
  seq : Nat
deriving DecidableEq

/-- The `for item in os.listdir(src)` loop of `rename_sequencial`
(lines 140-145): the directory listing is passed as (name, is-regular-file)
pairs in host enumeration order; each regular-file entry is renamed to
`stem + "_" + str(seq).zfill(padding) + os.path.splitext(item)[1]` inside
`src` and `seq` is incremented; other entries are skipped. -/
def rename_loop (src stem : PyStr) (padding : Nat) :
    List (PyStr × Bool) → Nat → List (PyStr × PyStr) → RenameAcc
  | [], seq, done => ⟨done, seq⟩
  | (item, isf) :: rest, seq, done =>
    if isf then
      rename_loop src stem padding rest (seq + 1)
        (done ++ [(pjoin src item,
          pjoin src (stem ++ pstr "_" ++ zfill (pyNatStr seq) padding ++
            (splitext item).2))])
    else rename_loop src stem padding rest seq done

/-- Function `rename_sequencial(src, stem, padding, start_num)` (lines 138-147). -/
def rename_sequencial (src : PyStr) (listing : List (PyStr × Bool)) (stem : PyStr)
    (padding start_num : Nat) : RenameAcc :=
  rename_loop src stem padding listing start_num []

lemma rename_loop_spec (src stem : PyStr) (padding : Nat) :
    ∀ (listing : List (PyStr × Bool)) (seq : Nat) (done : List (PyStr × PyStr)),
      rename_loop src stem padding listing seq done =
        ⟨done ++ (((listing.filter (fun e => e.2)).map Prod.fst).zip
            (List.range' seq ((listing.filter (fun e => e.2)).map Prod.fst).length)).map
          (fun q => (pjoin src q.1,
            pjoin src (stem ++ pstr "_" ++ zfill (pyNatStr q.2) padding ++
              (splitext q.1).2))),
          seq + ((listing.filter (fun e => e.2)).map Prod.fst).length⟩
  | [], seq, done => by simp [rename_loop]
  | (item, isf) :: rest, seq, done => by
    cases isf with
    | false =>
      rw [show rename_loop src stem padding ((item, false) :: rest) seq done =
        rename_loop src stem padding rest seq done from rfl]
      rw [rename_loop_spec src stem padding rest seq done]
      have hfc : List.filter (fun e : PyStr × Bool => e.2) ((item, false) :: rest) =
          List.filter (fun e => e.2) rest := by simp
      rw [hfc]
    | true =>
      rw [show rename_loop src stem padding ((item, true) :: rest) seq done =
        rename_loop src stem padding rest (seq + 1)
          (done ++ [(pjoin src item,
            pjoin src (stem ++ pstr "_" ++ zfill (pyNatStr seq) padding ++
              (splitext item).2))]) from rfl]
      rw [rename_loop_spec src stem padding rest (seq + 1) _]
      have hfc : List.filter (fun e : PyStr × Bool => e.2) ((item, true) :: rest) =
          (item, true) :: List.filter (fun e => e.2) rest := by simp
      rw [hfc]
      simp only [List.map_cons, List.length_cons, List.range'_succ, List.zip_cons_cons]
      rw [RenameAcc.mk.injEq]
      refine ⟨?_, by omega⟩
      simp [List.append_assoc]

/-- C3: the count reported by `rename_sequencial`'s final log line
("%d files renamed") is the final `seq`, not the number of renames performed
(`seq - start_num` per the spec): with one regular file and `start_num = 10`
exactly one rename happens, yet the reported value is 11. -/
theorem C3_reported_count_bug :
    (rename_sequencial (pstr "d") [(pstr "a.txt", true)] (pstr "img") 5 10).renames =
      [(pstr "d/a.txt", pstr "d/img_00010.txt")] ∧
    (rename_sequencial (pstr "d") [(pstr "a.txt", true)] (pstr "img") 5 10).seq = 11 ∧
    (rename_sequencial (pstr "d") [(pstr "a.txt", true)] (pstr "img") 5 10).seq ≠
      (rename_sequencial (pstr "d") [(pstr "a.txt", true)]
        (pstr "img") 5 10).renames.length := by
  decide

/-- C6: `rename_sequencial` renames exactly the regular files of the
listing, in enumeration order, the i-th one to
`stem + "_" + zero-padded (start_num + i) + its original extension` within
the same directory; non-file entries are skipped and consume no sequence
number, so the files receive exactly the numbers `start_num` through
`start_num + n - 1` and the final `seq` is `start_num + n`. -/
theorem C6_rename_scheme (src : PyStr) (listing : List (PyStr × Bool)) (stem : PyStr)
    (padding start_num : Nat) :
    (rename_sequencial src listing stem padding start_num).renames =
      ((((listing.filter (fun e => e.2)).map Prod.fst).zip
          (List.range' start_num ((listing.filter (fun e => e.2)).map Prod.fst).length)).map
        (fun q => (pjoin src q.1,
          pjoin src (stem ++ pstr "_" ++ zfill (pyNatStr q.2) padding ++
            (splitext q.1).2)))) ∧
    (rename_sequencial src listing stem padding start_num).seq =
      start_num + ((listing.filter (fun e => e.2)).map Prod.fst).length := by
  unfold rename_sequencial
  rw [rename_loop_spec src stem padding listing start_num []]
  exact ⟨by simp, rfl⟩

/-- A directory entry as seen by `list_files`: its name, whether
`os.path.isfile` holds for its path, and the `os.stat` data used in full
mode (`st_size` in bytes; `st_mtime` is a host float whose `str` rendering
is modelled as opaque text). -/
structure LEntry where
  name : PyStr
  isFile : Bool
  st_size : Nat
  st_mtimeRepr : PyStr
deriving DecidableEq

/-- Outcome of `list_files`: whether the output file was opened, the content
written to it, and whether the call raised (the `UnboundLocalError` caused
by an unrecognized mode). -/
structure ListFilesResult where
  opened : Bool
  content : PyStr
  raised : Bool
deriving DecidableEq

/-- Python `open(loc, "w")`: truncates, discarding whatever the file held. -/
def open_w (prior : PyStr) : PyStr := []

/-- The data line built for one regular file (lines 176-181); `none` models
the `UnboundLocalError` an unrecognized mode would raise at `line += "\n"`
(unreachable, since an unrecognized mode already raises at the header). -/
def row_line (src mode sep : PyStr) (e : LEntry) : Option PyStr :=
  if mode = pstr "simple" then some e.name
  else if mode = pstr "full" then
    some (src ++ sep ++ e.name ++ sep ++ pyNatStr e.st_size ++ sep ++ e.st_mtimeRepr)
  else none

/-- The header line (lines 164-169); `none` models the `UnboundLocalError`
raised at `line += "\n"` when the mode is neither "simple" nor "full". -/
def header_line (mode sep : PyStr) : Option PyStr :=
  if mode = pstr "simple" then some (pstr "file_name")
  else if mode = pstr "full" then
    some (pstr "location" ++ sep ++ pstr "filename" ++ sep ++ pstr "size" ++ sep ++
      pstr "last_modified")
  else none

/-- The `for item in os.listdir(src)` loop of `list_files` (lines 172-183):
one newline-terminated line per regular file, subdirectories skipped. -/
def list_rows (src mode sep : PyStr) : List LEntry → PyStr → ListFilesResult
  | [], acc => ⟨true, acc, false⟩
  | e :: rest, acc =>
    if e.isFile then
      match row_line src mode sep e with
      | none => ⟨true, acc, true⟩
      | some line => list_rows src mode sep rest (acc ++ line ++ ['\n'])
    else list_rows src mode sep rest acc

/-- Function `list_files(src, mode, loc, sep)` (lines 162-183): the immediate entries
of `src` are passed in host enumeration order; `prior` is whatever the
output file at `loc` held before the call. -/
def list_files (src mode : PyStr) (entries : List LEntry) (prior sep : PyStr) :
    ListFilesResult :=
  match header_line mode sep with
  | none => ⟨true, open_w prior, true⟩
  | some line => list_rows src mode sep entries (open_w prior ++ line ++ ['\n'])

lemma list_rows_spec (src mode sep : PyStr) (rowfn : LEntry → PyStr)
    (hrow : ∀ e, row_line src mode sep e = some (rowfn e)) :
    ∀ (entries : List LEntry) (acc : PyStr),
      list_rows src mode sep entries acc =
        ⟨true, acc ++ ((entries.filter (fun e => e.isFile)).map
          (fun e => rowfn e ++ ['\n'])).flatten, false⟩
  | [], acc => by simp [list_rows]
  | e :: rest, acc => by
    cases hf : e.isFile with
    | false =>
      rw [show list_rows src mode sep (e :: rest) acc =
        (if e.isFile then
          match row_line src mode sep e with
          | none => ⟨true, acc, true⟩
          | some line => list_rows src mode sep rest (acc ++ line ++ ['\n'])
        else list_rows src mode sep rest acc) from rfl]
      rw [hf]
      rw [list_rows_spec src mode sep rowfn hrow rest acc]
      have hfc : List.filter (fun e : LEntry => e.isFile) (e :: rest) =
          List.filter (fun e => e.isFile) rest := by simp [hf]
      simp [hfc]
    | true =>
      rw [show list_rows src mode sep (e :: rest) acc =
        (if e.isFile then
          match row_line src mode sep e with
          | none => ⟨true, acc, true⟩
          | some line => list_rows src mode sep rest (acc ++ line ++ ['\n'])
        else list_rows src mode sep rest acc) from rfl]
      rw [hf, hrow e]
      rw [show (if true = true then
          match some (rowfn e) with
          | none => (⟨true, acc, true⟩ : ListFilesResult)
          | some line => list_rows src mode sep rest (acc ++ line ++ ['\n'])
        else list_rows src mode sep rest acc) =
        list_rows src mode sep rest (acc ++ rowfn e ++ ['\n']) from rfl]
      rw [list_rows_spec src mode sep rowfn hrow rest (acc ++ rowfn e ++ ['\n'])]
      have hfc : List.filter (fun e : LEntry => e.isFile) (e :: rest) =
          e :: List.filter (fun e => e.isFile) rest := by simp [hf]
      simp [hfc, List.append_assoc]

/-- C7: `list_files` truncates the output file, writes exactly one header
line — `file_name` in simple mode, the four column names joined by the
separator in full mode — then one line per regular file among the immediate
entries (subdirectories skipped): the bare name in simple mode, or the
source directory, name, byte size and modification-time rendering joined by
the separator in full mode, every line terminated by a newline. -/
theorem C7_list_files_format (src sep prior : PyStr) (entries : List LEntry) :
    list_files src (pstr "simple") entries prior sep =
      ⟨true, pstr "file_name" ++ ['\n'] ++
        ((entries.filter (fun e => e.isFile)).map (fun e => e.name ++ ['\n'])).flatten,
        false⟩ ∧
    list_files src (pstr "full") entries prior sep =
      ⟨true, pstr "location" ++ sep ++ pstr "filename" ++ sep ++ pstr "size" ++ sep ++
          pstr "last_modified" ++ ['\n'] ++
        ((entries.filter (fun e => e.isFile)).map
          (fun e => src ++ sep ++ e.name ++ sep ++ pyNatStr e.st_size ++ sep ++
            e.st_mtimeRepr ++ ['\n'])).flatten,
        false⟩ := by
  constructor
  · rw [show list_files src (pstr "simple") entries prior sep =
      list_rows src (pstr "simple") sep entries
        (open_w prior ++ pstr "file_name" ++ ['\n']) from rfl]
    rw [list_rows_spec src (pstr "simple") sep (fun e => e.name) (fun e => rfl) entries _]
    simp [open_w, List.append_assoc]
  · rw [show list_files src (pstr "full") entries prior sep =
      list_rows src (pstr "full") sep entries
        (open_w prior ++ (pstr "location" ++ sep ++ pstr "filename" ++ sep ++
          pstr "size" ++ sep ++ pstr "last_modified") ++ ['\n']) from rfl]
    rw [list_rows_spec src (pstr "full") sep
      (fun e => src ++ sep ++ e.name ++ sep ++ pyNatStr e.st_size ++ sep ++
        e.st_mtimeRepr) (fun e => rfl) entries _]
    simp [open_w, List.append_assoc]

/-- C10: for any mode other than "simple" and "full", `list_files` raises
(the header `line` local is unbound) before writing anything, but only after
the output file has been opened in write mode: the call ends with the file
opened and truncated to empty content, no header and no rows. -/
theorem C10_unknown_mode (src mode : PyStr) (entries : List LEntry) (prior sep : PyStr)
    (h1 : mode ≠ pstr "simple") (h2 : mode ≠ pstr "full") :
    list_files src mode entries prior sep = ⟨true, [], true⟩ := by
  have hh : header_line mode sep = none := by
    unfold header_line
    rw [if_neg h1, if_neg h2]
  unfold list_files
  rw [hh]
  rfl

theorem C10_witness :
    pstr "csv" ≠ pstr "simple" ∧ pstr "csv" ≠ pstr "full" ∧
    list_files (pstr "d") (pstr "csv") [⟨pstr "a.txt", true, 3, pstr "100.0"⟩]
      (pstr "old") (pstr ",") = ⟨true, [], true⟩ :=
  ⟨by decide, by decide,
    C10_unknown_mode (pstr "d") (pstr "csv") [⟨pstr "a.txt", true, 3, pstr "100.0"⟩]
      (pstr "old") (pstr ",") (by decide) (by decide)⟩

example : pstr "ab" = ['a', 'b'] := by decide

example :
    list_files (pstr "d") (pstr "simple")
        [⟨pstr "a.txt", true, 3, pstr "1.0"⟩, ⟨pstr "sub", false, 0, pstr "0"⟩,
          ⟨pstr "b.txt", true, 7, pstr "2.5"⟩] (pstr "junk") (pstr ",") =
      ⟨true, pstr "file_name\na.txt\nb.txt\n", false⟩ := by decide

example :
    list_files (pstr "d") (pstr "full") [⟨pstr "a.txt", true, 3, pstr "1.5"⟩]
        (pstr "junk") (pstr "\t") =
      ⟨true, pstr "location\tfilename\tsize\tlast_modified\nd\ta.txt\t3\t1.5\n",
        false⟩ := by decide

example :
    rename_sequencial (pstr "d") [(pstr "a.jpg", true), (pstr "sub", false),
        (pstr "b", true)] (pstr "img") 3 10 =
      ⟨[(pstr "d/a.jpg", pstr "d/img_010.jpg"), (pstr "d/b", pstr "d/img_011")], 12⟩ := by
  decide

example : pjoin (pstr "d") (pstr "a.txt") = pstr "d/a.txt" := by decide

example : candidate (pstr "d") (pstr "a.txt") 3 = pstr "d/a3.txt" := by decide

example :
    copy_recursively [(pstr "s", pstr "a.txt")] (pstr "d") none 5 [pstr "d/a.txt"] =
      some ⟨[pstr "d/a0.txt", pstr "d/a.txt"], [(pstr "s/a.txt", pstr "d/a0.txt")], 1⟩ := by
  decide

example :
    copy_recursively [(pstr "s", pstr "a.TXT"), (pstr "s", pstr "b.jpg")] (pstr "d")
        (some (pstr "txt")) 5 [] =
      some ⟨[pstr "d/a.TXT"], [(pstr "s/a.TXT", pstr "d/a.TXT")], 1⟩ := by
  decide

example : pyNatStr 0 = pstr "0" := by decide

example : pyNatStr 10 = pstr "10" := by decide

example : pyNatStr 123 = pstr "123" := by decide

example : zfill (pyNatStr 7) 5 = pstr "00007" := by decide

example : splitext (pstr "a.txt") = (pstr "a", pstr ".txt") := by decide

example : splitext (pstr ".bashrc") = (pstr ".bashrc", pstr "") := by decide

example : splitext (pstr "..a.b") = (pstr "..a", pstr ".b") := by decide

example : splitext (pstr "noext") = (pstr "noext", pstr "") := by decide

example : iStr.eq (iStr.ofStr (pstr "File")) (pstr "FILE") = true := by decide

example : pyCount (pstr "aaa") (pstr "aa") = 1 := by decide

example : pyFind (pstr "abcab") (pstr "ab") = 0 := by decide

example : pyRFind (pstr "abcab") (pstr "ab") = 3 := by decide

example : pyRFind (pstr "abc") (pstr "") = 3 := by decide

example : pyFind (pstr "abc") (pstr "zz") = -1 := by decide
